import Mathlib

/-!
Verification of the cbui-cli component installer and project initializer.

This development shallowly embeds the pure decision/data logic of the CLI:

* `lib/initProject.js`: the `slugify` helper (lowercase, whitespace to
  hyphen, strip non-word/non-hyphen characters, collapse repeated hyphens)
  and the URL-scheme derivation (slugify, then delete every hyphen).
* `lib/downloader.js`: the per-component install pipeline
  (`getPackageInfoFromTgz` / `installComponentTgz`), the dependency merge
  into the project `package.json`, the batch-level
  `crossbuildui.dependencies` update, and the content-type branching of
  `downloadPackage`.
* `lib/auth.js` (unnamed source part): `saveToken` / `getToken`.
* the CLI entry (unnamed source part): the `update` command action.

JavaScript objects used as string maps are embedded as association lists
with JS assignment semantics (`obj[k] = v` updates in place, else appends);
JS truthiness of a string `s` is `s ≠ ""`, of an optional field it is
`Option.isSome` combined with the value's own truthiness.  Filesystem and
network effects are turned into explicit data: each component archive
carries the outcome of its fallible steps (manifest extraction, full
extraction, payload copy), and the pipeline is a pure state transformer.
-/

namespace CbuiCli

/-- JS object used as a string-keyed map: an association list.
Earlier entries shadow nothing (keys are unique by construction of
`set`), and `set` models `obj[k] = v`: update in place, else append. -/
abbrev JMap (β : Type) : Type := List (String × β)

/-- Property lookup `obj[k]`, `undefined` becoming `none`. -/
def jfind {β : Type} : JMap β → String → Option β
  | [], _ => none
  | (k', v) :: rest, k => if k' = k then some v else jfind rest k

/-- Property assignment `obj[k] = v`: update the first entry with key `k`
in place, or append a new entry. -/
def jset {β : Type} : JMap β → String → β → JMap β
  | [], k, v => [(k, v)]
  | (k', v') :: rest, k, v =>
      if k' = k then (k', v) :: rest else (k', v') :: jset rest k v

/-- JS spread `{...a, ...b}`: entries of `a` updated/extended by `b`. -/
def jmerge {β : Type} (a b : JMap β) : JMap β :=
  b.foldl (fun acc kv => jset acc kv.1 kv.2) a

/-- String-valued map, the shape of `dependencies` / `peerDependencies` /
`crossbuildui.dependencies` objects. -/
abbrev SMap : Type := JMap String

/-- JS truthiness of a possibly-undefined string (`undefined` and `""` are
falsy). -/
def truthy : Option String → Bool
  | none => false
  | some s => s != ""

/-! ### Slug and scheme normalization (`lib/initProject.js`) -/

/-- The single hyphen character used by `slugify`. -/
def hyChar : Char := '-'

/-- Character matched by the JS regex class `\s` (ECMAScript WhiteSpace
and LineTerminator), by code point. -/
def isWsJS (c : Char) : Bool :=
  let n := c.toNat
  decide (n = 9 ∨ n = 10 ∨ n = 11 ∨ n = 12 ∨ n = 13 ∨ n = 32 ∨ n = 160 ∨
    n = 5760 ∨ (8192 ≤ n ∧ n ≤ 8202) ∨ n = 8232 ∨ n = 8233 ∨ n = 8239 ∨
    n = 8287 ∨ n = 12288 ∨ n = 65279)

/-- Character matched by the JS regex class `[\w-]` (ASCII word characters
and the hyphen), the complement of what `replace(/[^\w-]+/g, '')`
deletes. -/
def isWordHyphen (c : Char) : Bool :=
  let n := c.toNat
  decide ((65 ≤ n ∧ n ≤ 90) ∨ (97 ≤ n ∧ n ≤ 122) ∨ (48 ≤ n ∧ n ≤ 57) ∨
    n = 95 ∨ n = 45)

/-- Hyphen test (the single-hyphen JS regex). -/
def isHy (c : Char) : Bool := decide (c.toNat = 45)

/-- `String.prototype.toLowerCase` restricted to the simple ASCII case
mapping (the only part `slugify`'s output can retain, since every
non-ASCII character is deleted by the `[^\w-]` filter). -/
def jsToLower (c : Char) : Char :=
  if h : 65 ≤ c.toNat ∧ c.toNat ≤ 90 then
    Char.ofNatAux (c.toNat + 32)
      (Or.inl (by omega))
  else c

/-- Global regex replacement of every maximal run of characters matching
`p` by the fixed string `rep` (the shape of `replace(/X+/g, rep)`).  The
flag records whether the previous character was part of a run. -/
def replaceRunsAux (p : Char → Bool) (rep : List Char) :
    Bool → List Char → List Char
  | _, [] => []
  | inRun, c :: rest =>
      if p c then
        (if inRun then [] else rep) ++ replaceRunsAux p rep true rest
      else c :: replaceRunsAux p rep false rest

/-- `str.replace(/X+/g, rep)` for a character class `X`. -/
def replaceRuns (p : Char → Bool) (rep : List Char) (l : List Char) :
    List Char :=
  replaceRunsAux p rep false l

/-- The character pipeline of `slugify`: lowercase, `\s+` to `-`,
delete `[^\w-]+`, collapse `--+` to `-`.  (Replacing every maximal hyphen
run by a single hyphen agrees with replacing runs of two or more, since runs of
length one are left unchanged either way.) -/
def slugChars (l : List Char) : List Char :=
  replaceRuns isHy [hyChar]
    (List.filter isWordHyphen
      (replaceRuns isWsJS [hyChar] (l.map jsToLower)))

/-- `slugify` from `lib/initProject.js`. -/
def slugify (s : String) : String := ⟨slugChars s.data⟩

/-- The URL-scheme default derivation from `initProject`:
slugify of the project base name with every hyphen deleted. -/
def normalizeScheme (s : String) : String :=
  ⟨(slugify s).data.filter (fun c => !isHy c)⟩

/-- Character class of `slugify` output: lowercase ASCII letter, digit,
underscore, or hyphen. -/
def slugCharOK (c : Char) : Bool :=
  let n := c.toNat
  decide (n = 45 ∨ n = 95 ∨ (48 ≤ n ∧ n ≤ 57) ∨ (97 ≤ n ∧ n ≤ 122))

/-- No two adjacent hyphens. -/
def noDouble : List Char → Bool
  | [] => true
  | [_] => true
  | a :: b :: rest => !(isHy a && isHy b) && noDouble (b :: rest)

/-- The head, if any, is not a hyphen. -/
def headNotHy : List Char → Bool
  | [] => true
  | c :: _ => !isHy c

/-- Character class actually guaranteed for the URL-scheme derivation:
lowercase ASCII letter, digit, or underscore (no hyphen). -/
def schemeCharOK (c : Char) : Bool :=
  let n := c.toNat
  decide (n = 95 ∨ (48 ≤ n ∧ n ≤ 57) ∨ (97 ≤ n ∧ n ≤ 122))

/-- The regex the specification asserts for the scheme value:
one ASCII letter, then letters, digits, plus, or period. -/
def matchesSchemeRegex (s : String) : Bool :=
  match s.data with
  | [] => false
  | c :: rest =>
      (decide ((65 ≤ c.toNat ∧ c.toNat ≤ 90) ∨ (97 ≤ c.toNat ∧ c.toNat ≤ 122)))
      && rest.all (fun d =>
        decide ((65 ≤ d.toNat ∧ d.toNat ≤ 90) ∨ (97 ≤ d.toNat ∧ d.toNat ≤ 122)
          ∨ (48 ≤ d.toNat ∧ d.toNat ≤ 57) ∨ d.toNat = 43 ∨ d.toNat = 46))

/-! ### The component install pipeline (`lib/downloader.js`) -/

/-- Result of `getPackageInfoFromTgz`: the fields read from the archive's
embedded `package.json`.  A JSON field that is absent is embedded as `""`
for the string fields (JS reads `undefined`, and the code only ever tests
them for truthiness or uses them when truthy) and as `[]` for the two
dependency maps (the code guards each use with `|| {}` or a truthiness
check, under which `undefined` and `{}` behave alike). -/
structure PkgInfo where
  name : String
  version : String
  dependencies : SMap
  peerDependencies : SMap
deriving DecidableEq, Repr

/-- One component archive of a batch, with the outcome of each fallible
I/O step it will undergo fixed as data: `info` is what
`getPackageInfoFromTgz` returns (`none` when no embedded manifest is
found or reading it throws), `extractOk` is whether `tar.extract` of the
full archive succeeds, `distExists` whether `package/dist` exists in the
extracted tree, and `copyOk` whether `fs.copy` of it succeeds. -/
structure CompArchive where
  info : Option PkgInfo
  extractOk : Bool
  distExists : Bool
  copyOk : Bool
deriving DecidableEq, Repr

/-- The `crossbuildui` section of the project `package.json`. -/
structure CBSection where
  dependencies : Option SMap
  rest : JMap String
deriving DecidableEq, Repr

/-- The project `package.json` as far as the pipeline reads or writes it;
`rest` stands for all unrelated fields, carried through untouched. -/
structure Manifest where
  dependencies : Option SMap
  peerDependencies : Option SMap
  crossbuildui : Option CBSection
  rest : JMap String
deriving DecidableEq, Repr

/-- State of one component's destination folder
(`crossbuildui/<componentFolderName>`). -/
inductive DirState where
  | emptied
  | copied
  | removed
deriving DecidableEq, Repr

/-- Mutable state of one `downloadPackage` invocation: the on-disk project
manifest (`none` when `package.json` does not exist), the
`installedPackagesInfo` list, the `hasPeerDependencies` flag, and the
destination folders touched so far. -/
structure DLState where
  manifest : Option Manifest
  installed : List PkgInfo
  hasPeerDependencies : Bool
  dirs : JMap DirState
deriving DecidableEq, Repr

/-- `packageInfo.name.split('/').pop()`: the part after the last slash. -/
def folderName (s : String) : String :=
  ⟨(s.data.reverse.takeWhile (fun c => c.toNat ≠ 47)).reverse⟩

/-- The descriptor of an archive, defaulting the absent case. -/
def infoOf (c : CompArchive) : PkgInfo :=
  c.info.getD ⟨"", "", [], []⟩

/-- Descriptor resolution (step 3a) succeeded: an embedded manifest was
found and both `name` and `version` are truthy. -/
def resolvedB (c : CompArchive) : Bool :=
  match c.info with
  | none => false
  | some pi => pi.name != "" && pi.version != ""

/-- The guard of the early `return null` in `installComponentTgz`:
`!packageInfo || !packageInfo.name || !packageInfo.version`. -/
def skipsComponent (c : CompArchive) : Bool := !resolvedB c

/-- The component ends up pushed onto `installedPackagesInfo`: descriptor
resolved, full extraction succeeded, and if `package/dist` exists its copy
succeeded (a missing `dist` is only warned about). -/
def pushed (c : CompArchive) : Bool :=
  resolvedB c && c.extractOk && (!c.distExists || c.copyOk)

/-- The per-key guard of the dependency merge:
`!projectPkg.dependencies[depName] &&
!(projectPkg.peerDependencies && projectPkg.peerDependencies[depName])`. -/
def depAddable (deps : SMap) (peer : Option SMap) (k : String) : Bool :=
  !truthy (jfind deps k) &&
    !(match peer with
      | none => false
      | some p => truthy (jfind p k))

/-- The second conjunct of the merge guard on its own:
`projectPkg.peerDependencies && projectPkg.peerDependencies[depName]` —
the name is (truthily) present in the peer dependencies section. -/
def peerBlocks (peer : Option SMap) (k : String) : Bool :=
  match peer with
  | none => false
  | some p => truthy (jfind p k)

/-- The `for (const depName in dependenciesToConsider)` loop: fold over
the merged dependency object, adding each key that passes `depAddable`
against the current `dependencies` object and the untouched
`peerDependencies` object, tracking `projectPkgModified`. -/
def mergeFold (peer : Option SMap) (acc : SMap × Bool) :
    SMap → SMap × Bool
  | [] => acc
  | (k, w) :: rest =>
      if depAddable acc.1 peer k then
        mergeFold peer (jset acc.1 k w, true) rest
      else mergeFold peer acc rest

/-- The dependency-management block of `installComponentTgz` (the
manifest exists): seed `projectPkg.dependencies || {}`, run the merge
loop, and write the file back only when `projectPkgModified` (so the
on-disk manifest is unchanged otherwise).  Returns the resulting on-disk
manifest and the `projectPkgModified` flag. -/
def mergeDependencies (m : Manifest) (newDeps : SMap) : Manifest × Bool :=
  let r := mergeFold m.peerDependencies (m.dependencies.getD [], false) newDeps
  if r.2 then ({ m with dependencies := some r.1 }, true) else (m, false)

/-- `installComponentTgz` as a state transformer over one archive.  The
skip path (descriptor unresolved) returns the state unchanged; the catch
path (extraction or copy threw) removes the destination folder and keeps
manifest and `installedPackagesInfo` unchanged; otherwise the component is
pushed and its dependencies merged into the project manifest. -/
def installComponentTgz (st : DLState) (c : CompArchive) : DLState :=
  match c.info with
  | none => st
  | some pi =>
      if pi.name == "" || pi.version == "" then st
      else
        let folder := folderName pi.name
        let dirs1 := jset st.dirs folder DirState.emptied
        if !c.extractOk then
          { st with dirs := jset dirs1 folder DirState.removed }
        else if c.distExists && !c.copyOk then
          { st with dirs := jset dirs1 folder DirState.removed }
        else
          let dirs2 :=
            if c.distExists then jset dirs1 folder DirState.copied else dirs1
          let hp1 := st.hasPeerDependencies
            || !pi.peerDependencies.isEmpty || !pi.dependencies.isEmpty
          let inst1 := st.installed ++ [pi]
          match st.manifest with
          | none =>
              { manifest := none, installed := inst1,
                hasPeerDependencies := hp1, dirs := dirs2 }
          | some m =>
              let r := mergeDependencies m
                (jmerge pi.dependencies pi.peerDependencies)
              { manifest := some r.1, installed := inst1,
                hasPeerDependencies := hp1 || r.2, dirs := dirs2 }

/-- Sequential processing of the component archives found in step 2. -/
def processBatch (st : DLState) (cs : List CompArchive) : DLState :=
  cs.foldl installComponentTgz st

/-- The fold of the batch-level `package.json` update:
`installedPackagesInfo.forEach(pkg => { if (pkg.name && pkg.version)
projectPackageJson.crossbuildui.dependencies[pkg.name] = pkg.version })`. -/
def recFold (d : SMap) : List PkgInfo → SMap
  | [] => d
  | pi :: rest =>
      recFold
        (if pi.name != "" && pi.version != "" then jset d pi.name pi.version
         else d) rest

/-- The batch-level manifest update of `downloadPackage`: default the
`crossbuildui` section and its `dependencies` object, then write every
batch entry into it.  All other manifest fields are carried through. -/
def recordComponents (m : Manifest) (batch : List PkgInfo) : Manifest :=
  let cb := m.crossbuildui.getD ⟨none, []⟩
  let d0 := cb.dependencies.getD []
  { m with crossbuildui := some { cb with dependencies := some (recFold d0 batch) } }

/-- The version recorded for name `n` by the batch fold: the value of the
last batch entry with truthy name and version whose name is `n`. -/
def lastVer : List PkgInfo → String → Option String
  | [], _ => none
  | pi :: rest, n =>
      match lastVer rest n with
      | some v => some v
      | none =>
          if pi.name == n && (pi.name != "" && pi.version != "") then
            some pi.version
          else none

/-- First-of on optional strings (used only to state lookups). -/
def orElseO (a b : Option String) : Option String :=
  match a with
  | some v => some v
  | none => b

/-- Lookup in the tracked-components sub-section
(`crossbuildui.dependencies`), empty when the section is absent. -/
def cbFind (m : Manifest) (n : String) : Option String :=
  jfind ((m.crossbuildui.getD ⟨none, []⟩).dependencies.getD []) n

/-- The unrelated fields of the `crossbuildui` section. -/
def cbRest (m : Manifest) : JMap String :=
  (m.crossbuildui.getD ⟨none, []⟩).rest

/-- Observable outcome of one `downloadPackage` invocation:
the final on-disk manifest, the batch `installedPackagesInfo`, the peer
dependency flag, the destination folders, whether the invocation is fatal
(`process.exit(1)` via a rethrown processing error), whether the
batch-level `crossbuildui.dependencies` write was performed, and whether
the fallback "add these manually" text was printed instead. -/
structure DLResult where
  manifest : Option Manifest
  installed : List PkgInfo
  hasPeerDependencies : Bool
  dirs : JMap DirState
  fatal : Bool
  recordedUpdate : Bool
  printedManualAdd : Bool
deriving DecidableEq, Repr

/-- Steps 4-5 of `downloadPackage`: after all archives are processed, if
`installedPackagesInfo` is non-empty, either write the batch into
`crossbuildui.dependencies` (manifest file exists) or print the pairs for
manual addition (it does not). -/
def finishBatch (st : DLState) : DLResult :=
  match st.installed with
  | [] =>
      { manifest := st.manifest, installed := [],
        hasPeerDependencies := st.hasPeerDependencies, dirs := st.dirs,
        fatal := false, recordedUpdate := false, printedManualAdd := false }
  | _ =>
      match st.manifest with
      | none =>
          { manifest := none, installed := st.installed,
            hasPeerDependencies := st.hasPeerDependencies, dirs := st.dirs,
            fatal := false, recordedUpdate := false, printedManualAdd := true }
      | some m =>
          { manifest := some (recordComponents m st.installed),
            installed := st.installed,
            hasPeerDependencies := st.hasPeerDependencies, dirs := st.dirs,
            fatal := false, recordedUpdate := true, printedManualAdd := false }

/-- Process a batch of component archives against an initial on-disk
manifest, then perform the batch-level update. -/
def runBatch (m0 : Option Manifest) (cs : List CompArchive) : DLResult :=
  finishBatch (processBatch ⟨m0, [], false, []⟩ cs)

/-- Substring containment on character lists (`String.prototype.includes`). -/
def listContainsSub : List Char → List Char → Bool
  | [], needle => needle.isEmpty
  | h :: t, needle => needle.isPrefixOf (h :: t) || listContainsSub t needle

/-- `haystack.includes(needle)`. -/
def strContains (s t : String) : Bool := listContainsSub s.data t.data

/-- `s.endsWith(t)`. -/
def strEndsWith (s t : String) : Bool :=
  t.data.reverse.isPrefixOf s.data.reverse

/-- Truthiness of the `content-type` header value (`null` or `""` falsy). -/
def ctTruthy : Option String → Bool
  | none => false
  | some s => s != ""

/-- The three processing branches of `downloadPackage` step 2. -/
inductive RespBranch where
  | single
  | container
  | unrecognized
deriving DecidableEq, Repr

/-- The branch dispatch of `downloadPackage`:
`contentType && (contentType.includes('application/gzip') ||
filename.endsWith('.tgz') || filename.endsWith('.tar.gz'))` chooses the
single-component branch, otherwise
`contentType && contentType.includes('application/x-tar')` chooses the
container branch, otherwise the unrecognized-content-type warning. -/
def branchOf (ct : Option String) (filename : String) : RespBranch :=
  if ctTruthy ct
      && (strContains (ct.getD "") "application/gzip"
        || strEndsWith filename ".tgz" || strEndsWith filename ".tar.gz") then
    RespBranch.single
  else if ctTruthy ct && strContains (ct.getD "") "application/x-tar" then
    RespBranch.container
  else RespBranch.unrecognized

/-- A downloaded response: the declared content type, the filename taken
from the `Content-Disposition` header, the response body viewed as a
single component archive (single branch), and viewed as a container
(whether its extraction succeeds and its named entries). -/
structure DLInput where
  contentType : Option String
  filename : String
  singleArchive : CompArchive
  containerExtractOk : Bool
  entries : List (String × CompArchive)
deriving Repr

/-- The entries of the container that are treated as component archives:
names ending in `.tgz` or `.tar.gz`; others are silently skipped. -/
def tgzEntries (es : List (String × CompArchive)) : List CompArchive :=
  (es.filter (fun e => strEndsWith e.1 ".tgz" || strEndsWith e.1 ".tar.gz")).map
    (fun e => e.2)

/-- A fatal invocation: the processing error is rethrown and caught by the
outer handler, which exits the process with status 1 before any
batch-level manifest update. -/
def fatalResult (m0 : Option Manifest) (dirs : JMap DirState) : DLResult :=
  { manifest := m0, installed := [], hasPeerDependencies := false,
    dirs := dirs, fatal := true, recordedUpdate := false,
    printedManualAdd := false }

/-- The processing stage of `downloadPackage` (everything after a 2xx
response has been streamed to disk): branch on the declared content type
and filename, install the component archive(s), then perform the
batch-level manifest update. -/
def processDownload (inp : DLInput) (m0 : Option Manifest) : DLResult :=
  match branchOf inp.contentType inp.filename with
  | RespBranch.single => runBatch m0 [inp.singleArchive]
  | RespBranch.container =>
      if inp.containerExtractOk then runBatch m0 (tgzEntries inp.entries)
      else fatalResult m0 []
  | RespBranch.unrecognized => runBatch m0 []

/-- A component archive whose descriptor resolves but whose full
extraction throws. -/
def archiveExtractFails : CompArchive :=
  ⟨some ⟨"@crossbuildui/button", "1.0.0", [], []⟩, false, true, true⟩

/-- A minimal existing project manifest. -/
def manifestEmpty : Manifest := ⟨some [], none, none, []⟩

/-- A component archive whose embedded manifest has a `name` but no
`version`. -/
def archiveNoVersion : CompArchive :=
  ⟨some ⟨"@crossbuildui/card", "", [], []⟩, true, true, true⟩

/-- A well-formed single-component archive. -/
def archiveGood : CompArchive :=
  ⟨some ⟨"@crossbuildui/avatar", "1.2.0", [], []⟩, true, true, true⟩

/-! ### Credential store (`lib/auth.js`) and the `update` command -/

/-- `saveToken`: write `{ token }` to the token file (creating it),
overwriting any previous content.  The token file is embedded as the
string value of its `token` field (`none` when the file does not exist). -/
def saveToken (token : String) (_file : Option String) : Option String :=
  some token

/-- `getToken`: if the token file exists, read it and return
`token || null`; any failure or absence yields `null`. -/
def getToken (file : Option String) : Option String :=
  match file with
  | none => none
  | some t => if t != "" then some t else none

/-- Outcome of the `update` command action before/at its first effect:
whether the process exits (with which code), whether the project
`package.json` was read, whether the package-endpoint network request was
issued, and whether an error message was printed. -/
structure UpdateRes where
  exitCode : Option Nat
  networkRequest : Bool
  readManifest : Bool
  errorPrinted : Bool
deriving DecidableEq, Repr

/-- The `update [packageNames...] --all` action of the CLI entry point:
authentication check (a re-read of the token file; no network, no
manifest access), then the `--all`-with-names conflict check, then either
the manifest-driven or the explicit-names path ending in
`downloadPackage` (the network request).  The unreachable
`if (!token)` fallback after a passed `isAuthenticated` is subsumed by
the first check, which is the same `getToken` read. -/
def updateAction (tokenFile : Option String) (names : List String)
    (allFlag : Bool) (manifestExists : Bool) (cbuiDeps : SMap) : UpdateRes :=
  if (getToken tokenFile).isNone then
    ⟨some 1, false, false, true⟩
  else if allFlag then
    if !names.isEmpty then ⟨some 1, false, false, true⟩
    else if !manifestExists then ⟨some 0, false, false, false⟩
    else if !cbuiDeps.isEmpty then ⟨none, true, true, false⟩
    else ⟨some 0, false, true, false⟩
  else if names.isEmpty then ⟨some 1, false, false, true⟩
  else ⟨none, true, false, false⟩

theorem jfind_jset_self {β : Type} (m : JMap β) (k : String) (v : β) :
    jfind (jset m k v) k = some v := by
  induction m with
  | nil => simp [jset, jfind]
  | cons kv rest ih =>
      obtain ⟨k', v'⟩ := kv
      by_cases h : k' = k
      · simp [jset, h, jfind]
      · simp [jset, h, jfind, ih]

theorem jfind_jset_ne {β : Type} (m : JMap β) (k k₀ : String) (v : β)
    (h : k ≠ k₀) : jfind (jset m k v) k₀ = jfind m k₀ := by
  induction m with
  | nil => simp [jset, jfind, h]
  | cons kv rest ih =>
      obtain ⟨k', v'⟩ := kv
      by_cases h' : k' = k
      · subst h'
        simp [jset, jfind, h]
      · simp [jset, h', jfind, ih]

theorem toNat_jsToLower_not_upper (c : Char) :
    ¬(65 ≤ (jsToLower c).toNat ∧ (jsToLower c).toNat ≤ 90) := by
  unfold jsToLower
  by_cases h : 65 ≤ c.toNat ∧ c.toNat ≤ 90
  · rw [dif_pos h]
    have : (Char.ofNatAux (c.toNat + 32) (Or.inl (by omega))).toNat
        = c.toNat + 32 := rfl
    rw [this]
    omega
  · rw [dif_neg h]
    exact h

theorem mem_replaceRunsAux {p : Char → Bool} {rep : List Char} {c : Char} :
    ∀ {l : List Char} {b : Bool}, c ∈ replaceRunsAux p rep b l →
      c ∈ rep ∨ (c ∈ l ∧ p c = false) := by
  intro l
  induction l with
  | nil => intro b h; simp [replaceRunsAux] at h
  | cons d rest ih =>
      intro b h
      unfold replaceRunsAux at h
      by_cases hd : p d
      · rw [if_pos hd] at h
        rcases List.mem_append.mp h with h₁ | h₂
        · left
          cases b with
          | true => simp at h₁
          | false => exact h₁
        · rcases ih h₂ with h₃ | ⟨h₄, h₅⟩
          · exact Or.inl h₃
          · exact Or.inr ⟨List.mem_cons_of_mem d h₄, h₅⟩
      · rw [if_neg hd] at h
        rcases List.mem_cons.mp h with rfl | h₂
        · exact Or.inr ⟨List.mem_cons_self c rest, by simpa using hd⟩
        · rcases ih h₂ with h₃ | ⟨h₄, h₅⟩
          · exact Or.inl h₃
          · exact Or.inr ⟨List.mem_cons_of_mem d h₄, h₅⟩

theorem slugChars_class {l : List Char} {c : Char} (h : c ∈ slugChars l) :
    slugCharOK c = true := by
  unfold slugChars replaceRuns at h
  rcases mem_replaceRunsAux h with h₁ | ⟨h₂, _⟩
  · rcases List.mem_singleton.mp h₁ with rfl
    decide
  · have h₃ := List.mem_filter.mp h₂
    rcases mem_replaceRunsAux h₃.1 with h₄ | ⟨h₅, _⟩
    · rcases List.mem_singleton.mp h₄ with rfl
      decide
    · rcases List.mem_map.mp h₅ with ⟨x, _, rfl⟩
      have hup := toNat_jsToLower_not_upper x
      have hw := h₃.2
      unfold isWordHyphen at hw
      unfold slugCharOK
      simp only [decide_eq_true_eq] at hw ⊢
      omega

theorem replaceRunsAux_id {p : Char → Bool} {rep : List Char} :
    ∀ {l : List Char}, (∀ c ∈ l, p c = false) → ∀ b,
      replaceRunsAux p rep b l = l := by
  intro l
  induction l with
  | nil => intro _ _; rfl
  | cons d rest ih =>
      intro h b
      have hd : p d = false := h d (List.mem_cons_self d rest)
      unfold replaceRunsAux
      rw [if_neg (by simp [hd])]
      rw [ih (fun c hc => h c (List.mem_cons_of_mem d hc)) false]

theorem map_id_of_mem {f : Char → Char} :
    ∀ {l : List Char}, (∀ c ∈ l, f c = c) → l.map f = l := by
  intro l
  induction l with
  | nil => intro _; rfl
  | cons d rest ih =>
      intro h
      simp only [List.map_cons]
      rw [h d (List.mem_cons_self d rest),
        ih (fun c hc => h c (List.mem_cons_of_mem d hc))]

theorem collapse_noDouble :
    ∀ (l : List Char) (b : Bool),
      noDouble (replaceRunsAux isHy [hyChar] b l) = true ∧
      (b = true → headNotHy (replaceRunsAux isHy [hyChar] b l) = true) := by
  intro l
  induction l with
  | nil => intro b; exact ⟨rfl, fun _ => rfl⟩
  | cons c rest ih =>
      intro b
      unfold replaceRunsAux
      by_cases hc : isHy c
      · rw [if_pos hc]
        cases b with
        | true =>
            rw [if_pos rfl, List.nil_append]
            exact ⟨(ih true).1, fun _ => (ih true).2 rfl⟩
        | false =>
            rw [if_neg Bool.false_ne_true, List.singleton_append]
            refine ⟨?_, fun h => by cases h⟩
            have h1 := (ih true).1
            have h2 := (ih true).2 rfl
            cases hrec : replaceRunsAux isHy [hyChar] true rest with
            | nil => rfl
            | cons d t =>
                rw [hrec] at h1 h2
                simp only [headNotHy, Bool.not_eq_true'] at h2
                simp only [noDouble, Bool.and_eq_true, Bool.not_eq_true']
                exact ⟨by simp [h2], h1⟩
      · rw [if_neg hc]
        have h1 := (ih false).1
        refine ⟨?_, fun _ => ?_⟩
        · cases hrec : replaceRunsAux isHy [hyChar] false rest with
          | nil => rfl
          | cons d t =>
              rw [hrec] at h1
              simp only [noDouble, Bool.and_eq_true, Bool.not_eq_true']
              simp only [Bool.not_eq_true] at hc
              exact ⟨by simp [hc], h1⟩
        · simp only [headNotHy, Bool.not_eq_true']
          simpa using hc

theorem noDouble_tail {c : Char} {rest : List Char}
    (h : noDouble (c :: rest) = true) : noDouble rest = true := by
  cases rest with
  | nil => rfl
  | cons d t =>
      simp only [noDouble, Bool.and_eq_true] at h
      exact h.2

theorem collapse_fix :
    ∀ (l : List Char) (b : Bool), noDouble l = true →
      (b = true → headNotHy l = true) →
      replaceRunsAux isHy [hyChar] b l = l := by
  intro l
  induction l with
  | nil => intro b _ _; rfl
  | cons c rest ih =>
      intro b hnd hh
      unfold replaceRunsAux
      by_cases hc : isHy c
      · rw [if_pos hc]
        cases b with
        | true =>
            exfalso
            have := hh rfl
            simp only [headNotHy, Bool.not_eq_true'] at this
            rw [hc] at this
            cases this
        | false =>
            rw [if_neg Bool.false_ne_true, List.singleton_append]
            have hceq : c = hyChar := by
              have h45 : c.toNat = 45 := of_decide_eq_true hc
              have := Char.ofNat_toNat c
              rw [h45] at this
              rw [← this]
              rfl
            have hrest : replaceRunsAux isHy [hyChar] true rest = rest := by
              apply ih true (noDouble_tail hnd)
              intro _
              cases rest with
              | nil => rfl
              | cons d t =>
                  simp only [noDouble, Bool.and_eq_true, Bool.not_eq_true',
                    Bool.and_eq_false_iff] at hnd
                  simp only [headNotHy, Bool.not_eq_true']
                  rcases hnd.1 with h | h
                  · rw [hc] at h; cases h
                  · exact h
            rw [hrest, hceq]
      · rw [if_neg hc]
        rw [ih false (noDouble_tail hnd) (fun h => by cases h)]

theorem jsToLower_fix {c : Char} (h : slugCharOK c = true) :
    jsToLower c = c := by
  unfold jsToLower
  have h' := of_decide_eq_true h
  rw [dif_neg (by omega)]

theorem slugOK_not_ws {c : Char} (h : slugCharOK c = true) :
    isWsJS c = false := by
  have h' := of_decide_eq_true h
  unfold isWsJS
  simp only [decide_eq_false_iff_not]
  omega

theorem slugOK_word {c : Char} (h : slugCharOK c = true) :
    isWordHyphen c = true := by
  have h' := of_decide_eq_true h
  unfold isWordHyphen
  simp only [decide_eq_true_eq]
  omega

theorem slugChars_noDouble (l : List Char) :
    noDouble (slugChars l) = true :=
  (collapse_noDouble _ false).1

theorem slugChars_idem (l : List Char) :
    slugChars (slugChars l) = slugChars l := by
  have hclass : ∀ c ∈ slugChars l, slugCharOK c = true :=
    fun c hc => slugChars_class hc
  have h1 : (slugChars l).map jsToLower = slugChars l :=
    map_id_of_mem (fun c hc => jsToLower_fix (hclass c hc))
  have h2 : replaceRuns isWsJS [hyChar] (slugChars l) = slugChars l :=
    replaceRunsAux_id (fun c hc => slugOK_not_ws (hclass c hc)) false
  have h3 : List.filter isWordHyphen (slugChars l) = slugChars l :=
    List.filter_eq_self.mpr (fun c hc => slugOK_word (hclass c hc))
  have h4 : replaceRuns isHy [hyChar] (slugChars l) = slugChars l :=
    collapse_fix _ false (slugChars_noDouble l) (fun h => by cases h)
  show replaceRuns isHy [hyChar]
      (List.filter isWordHyphen
        (replaceRuns isWsJS [hyChar] ((slugChars l).map jsToLower)))
    = slugChars l
  rw [h1, h2, h3, h4]

/-- C8: slug normalization is idempotent: applying `slugify` (lowercase,
whitespace to hyphen, strip non-word/non-hyphen characters, collapse
repeated hyphens) twice yields the same result as applying it once. -/
theorem slugify_idempotent (s : String) : slugify (slugify s) = slugify s :=
  congrArg String.mk (slugChars_idem s.data)

/-- C7 (counterexample): the scheme derivation applied to `"_"` yields
`"_"`, which does not match `^[A-Za-z][A-Za-z0-9+.]*$`. -/
theorem normalizeScheme_regex_cex :
    matchesSchemeRegex (normalizeScheme "_") = false := by decide

/-- C7 (amended): every character of the URL-scheme derivation is a
lowercase ASCII letter, a digit, or an underscore, and in particular is
never a hyphen; the result need not match `^[A-Za-z][A-Za-z0-9+.]*$`
(it can be empty, start with a digit, or contain an underscore). -/
theorem normalizeScheme_chars :
    ∀ s : String,
      ((normalizeScheme s).data.all (fun c => schemeCharOK c && !isHy c))
        = true := by
  intro s
  apply List.all_eq_true.mpr
  intro c hc
  have hc' : c ∈ (slugChars s.data).filter (fun c => !isHy c) := hc
  have hmem := List.mem_filter.mp hc'
  have hclass := of_decide_eq_true (slugChars_class hmem.1)
  have hnh : isHy c = false := by
    have := hmem.2
    simpa using this
  have hn45 : ¬(c.toNat = 45) := by
    intro h
    rw [show isHy c = decide (c.toNat = 45) from rfl, decide_eq_true h] at hnh
    cases hnh
  simp only [Bool.and_eq_true, Bool.not_eq_true']
  refine ⟨?_, hnh⟩
  unfold schemeCharOK
  simp only [decide_eq_true_eq]
  omega

theorem installComponentTgz_skip {c : CompArchive} (st : DLState)
    (h : skipsComponent c = true) : installComponentTgz st c = st := by
  unfold skipsComponent resolvedB at h
  cases hinfo : c.info with
  | none => simp [installComponentTgz, hinfo]
  | some pi =>
      rw [hinfo] at h
      simp only [Bool.not_eq_true', Bool.and_eq_false_iff,
        Bool.not_eq_true] at h
      unfold installComponentTgz
      rw [hinfo]
      simp only []
      rw [if_pos]
      show (pi.name == "" || pi.version == "") = true
      rcases h with h | h
      · simp only [Bool.or_eq_true]
        exact Or.inl (by simpa using h)
      · simp only [Bool.or_eq_true]
        exact Or.inr (by simpa using h)

theorem installComponentTgz_installed (st : DLState) (c : CompArchive) :
    (installComponentTgz st c).installed =
      st.installed ++ (if pushed c then [infoOf c] else []) := by
  cases hinfo : c.info with
  | none =>
      simp [installComponentTgz, hinfo, pushed, resolvedB]
  | some pi =>
      have hres : resolvedB c = (pi.name != "" && pi.version != "") := by
        simp [resolvedB, hinfo]
      have hio : infoOf c = pi := by simp [infoOf, hinfo]
      by_cases hg : (pi.name == "" || pi.version == "") = true
      · have hres0 : resolvedB c = false := by
          rw [hres]
          rcases Bool.or_eq_true _ _ |>.mp hg with h | h
          · simp [show pi.name = "" from by simpa using h]
          · simp [show pi.version = "" from by simpa using h]
        have hp : pushed c = false := by
          unfold pushed
          simp [hres0]
        unfold installComponentTgz
        rw [hinfo]
        simp only []
        rw [if_pos hg, hp]
        simp
      · have hg' : (pi.name == "") = false ∧ (pi.version == "") = false := by
          constructor
          · by_contra hx
            have hx' : (pi.name == "") = true := by
              revert hx; cases (pi.name == "") <;> simp
            exact hg (by simp [Bool.or_eq_true]; exact Or.inl (by simpa using hx'))
          · by_contra hx
            have hx' : (pi.version == "") = true := by
              revert hx; cases (pi.version == "") <;> simp
            exact hg (by simp [Bool.or_eq_true]; exact Or.inr (by simpa using hx'))
        have hres1 : resolvedB c = true := by
          rw [hres]
          simp only [Bool.and_eq_true, bne_iff_ne, ne_eq]
          exact ⟨by simpa using hg'.1, by simpa using hg'.2⟩
        unfold installComponentTgz
        rw [hinfo]
        simp only []
        rw [if_neg hg]
        by_cases hex : c.extractOk = true
        · rw [if_neg (by simp [hex])]
          by_cases hdc : (c.distExists && !c.copyOk) = true
          · rw [if_pos hdc]
            have hp : pushed c = false := by
              unfold pushed
              have h1 : c.distExists = true := (Bool.and_eq_true _ _ |>.mp hdc).1
              have h2 : c.copyOk = false := by
                have := (Bool.and_eq_true _ _ |>.mp hdc).2
                simpa using this
              simp [hres1, hex, h1, h2]
            rw [hp]
            simp
          · rw [if_neg hdc]
            have hdcf : (c.distExists && !c.copyOk) = false :=
              Bool.eq_false_iff.mpr hdc
            have hp : pushed c = true := by
              unfold pushed
              rcases Bool.and_eq_false_iff.mp hdcf with h | h
              · simp [hres1, hex, h]
              · have hcp : c.copyOk = true := by
                  revert h; cases c.copyOk <;> simp
                simp [hres1, hex, hcp]
            rw [hp]
            cases hm : st.manifest <;> simp [hio, hm]
        · have hexf : c.extractOk = false := Bool.eq_false_iff.mpr hex
          rw [if_pos (by simp [hexf])]
          have hp : pushed c = false := by
            unfold pushed
            simp [hexf]
          rw [hp]
          simp

theorem installComponentTgz_manifest_isSome (st : DLState) (c : CompArchive) :
    (installComponentTgz st c).manifest.isSome = st.manifest.isSome := by
  cases hinfo : c.info with
  | none => simp [installComponentTgz, hinfo]
  | some pi =>
      unfold installComponentTgz
      rw [hinfo]
      simp only []
      by_cases hg : (pi.name == "" || pi.version == "") = true
      · rw [if_pos hg]
      · rw [if_neg hg]
        by_cases hex : (!c.extractOk) = true
        · rw [if_pos hex]
        · rw [if_neg hex]
          by_cases hdc : (c.distExists && !c.copyOk) = true
          · rw [if_pos hdc]
          · rw [if_neg hdc]
            cases hm : st.manifest <;> simp [hm]

theorem processBatch_installed (cs : List CompArchive) (st : DLState) :
    (processBatch st cs).installed =
      st.installed ++ (cs.filter pushed).map infoOf := by
  induction cs generalizing st with
  | nil => simp [processBatch]
  | cons c rest ih =>
      have hstep := installComponentTgz_installed st c
      show (processBatch (installComponentTgz st c) rest).installed = _
      rw [ih (installComponentTgz st c), hstep]
      by_cases hp : pushed c = true
      · simp [List.filter_cons, hp]
      · have hpf : pushed c = false := Bool.eq_false_iff.mpr hp
        simp [List.filter_cons, hpf]

theorem processBatch_manifest_isSome (cs : List CompArchive) (st : DLState) :
    (processBatch st cs).manifest.isSome = st.manifest.isSome := by
  induction cs generalizing st with
  | nil => rfl
  | cons c rest ih =>
      show (processBatch (installComponentTgz st c) rest).manifest.isSome = _
      rw [ih (installComponentTgz st c),
        installComponentTgz_manifest_isSome st c]

theorem finishBatch_installed (st : DLState) :
    (finishBatch st).installed = st.installed := by
  obtain ⟨m, inst, hp, dirs⟩ := st
  cases inst with
  | nil => rfl
  | cons a l => cases m <;> rfl

theorem finishBatch_recordedUpdate (st : DLState) :
    (finishBatch st).recordedUpdate =
      (!st.installed.isEmpty && st.manifest.isSome) := by
  obtain ⟨m, inst, hp, dirs⟩ := st
  cases inst with
  | nil => rfl
  | cons a l => cases m <;> rfl

/-- C3 (amended): the batch-level `crossbuildui.dependencies` write is
performed iff the project manifest file exists and at least one component
passed its descriptor resolution AND its extraction/copy step (a missing
`dist` folder still counts); and the recorded batch consists of exactly
the descriptors of those fully processed components — a component whose
extraction or copy failed is NOT included. -/
theorem runBatch_recorded_iff_pushed (m0 : Option Manifest)
    (cs : List CompArchive) :
    (runBatch m0 cs).installed = (cs.filter pushed).map infoOf ∧
    (runBatch m0 cs).recordedUpdate = (m0.isSome && cs.any pushed) := by
  have hinst : (processBatch ⟨m0, [], false, []⟩ cs).installed
      = (cs.filter pushed).map infoOf := by
    rw [processBatch_installed]
    exact List.nil_append _
  have hman : (processBatch ⟨m0, [], false, []⟩ cs).manifest.isSome
      = m0.isSome := processBatch_manifest_isSome cs _
  constructor
  · show (finishBatch _).installed = _
    rw [finishBatch_installed, hinst]
  · show (finishBatch _).recordedUpdate = _
    rw [finishBatch_recordedUpdate, hinst, hman]
    have hiff : ((cs.filter pushed).map infoOf).isEmpty = !cs.any pushed := by
      cases hany : cs.any pushed with
      | true =>
          rcases List.any_eq_true.mp hany with ⟨a, ha, hpa⟩
          have hmem : a ∈ cs.filter pushed := List.mem_filter.mpr ⟨ha, hpa⟩
          cases hf : cs.filter pushed with
          | nil => rw [hf] at hmem; simp at hmem
          | cons x xs => simp [hf]
      | false =>
          have hnil : cs.filter pushed = [] := by
            apply List.filter_eq_nil_iff.mpr
            intro a ha hpa
            have := List.any_eq_true.mpr ⟨a, ha, hpa⟩
            rw [hany] at this
            cases this
          rw [hnil]
          rfl
    rw [hiff]
    cases cs.any pushed <;> cases m0.isSome <;> rfl

/-- C3 (counterexample): a batch with a single component whose descriptor
resolution succeeded but whose extraction then failed performs no
batch-level manifest update and records no component, refuting both
directions of the claim ("performed iff at least one descriptor
resolution succeeded" and "still included in the recorded batch"). -/
theorem runBatch_after_extract_failure_cex :
    resolvedB archiveExtractFails = true ∧
    (runBatch (some manifestEmpty) [archiveExtractFails]).recordedUpdate
      = false ∧
    (runBatch (some manifestEmpty) [archiveExtractFails]).installed = [] := by
  decide

/-- C4 (amended): a component archive is skipped — its archive discarded,
the invocation state left untouched — exactly when no embedded manifest is
found or the manifest lacks the `name` field or lacks the `version` field
(either one suffices, not only both); the remaining components of the
batch are still processed as if the skipped one were absent. -/
theorem skipped_component_continues_batch (st : DLState) (c : CompArchive)
    (rest : List CompArchive) (h : skipsComponent c = true) :
    installComponentTgz st c = st ∧
    processBatch st (c :: rest) = processBatch st rest := by
  refine ⟨installComponentTgz_skip st h, ?_⟩
  show processBatch (installComponentTgz st c) rest = processBatch st rest
  rw [installComponentTgz_skip st h]

/-- C4 (witness): a manifest-less archive is skipped while the rest of the
batch proceeds. -/
theorem skipped_component_continues_batch_witness :
    skipsComponent (⟨none, true, true, true⟩ : CompArchive) = true ∧
    processBatch ⟨some manifestEmpty, [], false, []⟩
        [⟨none, true, true, true⟩, archiveExtractFails]
      = processBatch ⟨some manifestEmpty, [], false, []⟩
          [archiveExtractFails] :=
  ⟨by decide,
    (skipped_component_continues_batch ⟨some manifestEmpty, [], false, []⟩
      ⟨none, true, true, true⟩ [archiveExtractFails] (by decide)).2⟩

/-- C4 (counterexample): an archive whose embedded manifest has a `name`
but lacks only the `version` field does not lack both, yet the code skips
it (the state is unchanged and nothing is installed), refuting "skipped
exactly when ... lacks both the name and the version field". -/
theorem skip_despite_name_present_cex :
    archiveNoVersion.info.isSome = true ∧
    (infoOf archiveNoVersion).name ≠ "" ∧
    ¬((infoOf archiveNoVersion).name = "" ∧
      (infoOf archiveNoVersion).version = "") ∧
    installComponentTgz ⟨some manifestEmpty, [], false, []⟩ archiveNoVersion
      = ⟨some manifestEmpty, [], false, []⟩ := by
  decide

/-- C5 (amended): whenever the branch dispatch lands on the unrecognized
case — the content type is absent/empty, or it mentions neither the
compressed-tarball nor plain-tarball type AND the downloaded filename does
not end in `.tgz`/`.tar.gz` — processing stops with a warning as a
soft-fail: no fatal exit, no component installed, the project manifest
unchanged, no batch-level update.  (The branch taken is determined by the
declared content type TOGETHER WITH the downloaded filename, not by the
content type alone.) -/
theorem unrecognized_content_type_soft_fail (inp : DLInput)
    (m0 : Option Manifest)
    (h : branchOf inp.contentType inp.filename = RespBranch.unrecognized) :
    (processDownload inp m0).fatal = false ∧
    (processDownload inp m0).installed = [] ∧
    (processDownload inp m0).manifest = m0 ∧
    (processDownload inp m0).recordedUpdate = false := by
  unfold processDownload
  rw [h]
  exact ⟨rfl, rfl, rfl, rfl⟩

/-- C5 (witness): a response with no declared content type soft-fails. -/
theorem unrecognized_content_type_soft_fail_witness :
    branchOf (none : Option String) "file.bin" = RespBranch.unrecognized ∧
    (processDownload ⟨none, "file.bin", archiveExtractFails, true, []⟩
        (some manifestEmpty)).installed = [] :=
  ⟨by decide,
    (unrecognized_content_type_soft_fail
      ⟨none, "file.bin", archiveExtractFails, true, []⟩
      (some manifestEmpty) (by decide)).2.1⟩

/-- C5 (counterexample): a response whose declared content type mentions
neither tarball type (`text/plain`) but whose filename ends in `.tgz`
takes the single-component branch and installs a component, refuting both
"content type neither ... implies abort with warning" and "the branch
taken is determined by the response's declared content type". -/
theorem content_type_alone_cex :
    strContains "text/plain" "application/gzip" = false ∧
    strContains "text/plain" "application/x-tar" = false ∧
    (processDownload ⟨some "text/plain", "avatar.tgz", archiveGood, true, []⟩
        (some manifestEmpty)).installed
      = [⟨"@crossbuildui/avatar", "1.2.0", [], []⟩] := by
  decide

/-- C10: when a component's descriptor resolved but its full extraction or
its payload copy then throws, the per-component catch handler removes the
component's destination folder, so no partially populated destination
folder is left behind. -/
theorem failed_install_removes_destination (st : DLState) (c : CompArchive)
    (h1 : resolvedB c = true)
    (h2 : c.extractOk = false ∨ (c.distExists = true ∧ c.copyOk = false)) :
    jfind (installComponentTgz st c).dirs (folderName (infoOf c).name)
      = some DirState.removed := by
  cases hinfo : c.info with
  | none =>
      exfalso
      unfold resolvedB at h1
      rw [hinfo] at h1
      cases h1
  | some pi =>
      have hres : (pi.name != "" && pi.version != "") = true := by
        unfold resolvedB at h1
        rw [hinfo] at h1
        exact h1
      have hg : ¬(pi.name == "" || pi.version == "") = true := by
        intro hx
        rcases Bool.or_eq_true _ _ |>.mp hx with h | h
        · rcases Bool.and_eq_true _ _ |>.mp hres with ⟨h', _⟩
          rw [show pi.name = "" from by simpa using h] at h'
          simp at h'
        · rcases Bool.and_eq_true _ _ |>.mp hres with ⟨_, h'⟩
          rw [show pi.version = "" from by simpa using h] at h'
          simp at h'
      have hio : infoOf c = pi := by simp [infoOf, hinfo]
      unfold installComponentTgz
      rw [hinfo]
      simp only []
      rw [if_neg hg, hio]
      by_cases hex : c.extractOk = true
      · have hdc : (c.distExists && !c.copyOk) = true := by
          rcases h2 with h | ⟨hd, hcp⟩
          · rw [h] at hex; cases hex
          · simp [hd, hcp]
        rw [if_neg (by simp [hex]), if_pos hdc]
        exact jfind_jset_self _ _ _
      · have hexf : c.extractOk = false := Bool.eq_false_iff.mpr hex
        rw [if_pos (by simp [hexf])]
        exact jfind_jset_self _ _ _

/-- C10 (witness): a resolved component whose extraction fails ends with
its destination folder removed. -/
theorem failed_install_removes_destination_witness :
    resolvedB archiveExtractFails = true ∧
    jfind (installComponentTgz ⟨some manifestEmpty, [], false, []⟩
        archiveExtractFails).dirs
      (folderName (infoOf archiveExtractFails).name)
      = some DirState.removed :=
  ⟨by decide,
    failed_install_removes_destination ⟨some manifestEmpty, [], false, []⟩
      archiveExtractFails (by decide) (Or.inl (by decide))⟩

theorem depAddable_eq (deps : SMap) (peer : Option SMap) (k : String) :
    depAddable deps peer k
      = (!truthy (jfind deps k) && !peerBlocks peer k) := by
  cases peer <;> rfl

theorem mergeFold_unchanged (dep : String) :
    ∀ (nd : SMap) (peer : Option SMap) (acc : SMap × Bool),
      (truthy (jfind acc.1 dep) || peerBlocks peer dep) = true →
      jfind (mergeFold peer acc nd).1 dep = jfind acc.1 dep := by
  intro nd
  induction nd with
  | nil => intro peer acc _; rfl
  | cons kv rest ih =>
      intro peer acc h
      obtain ⟨k, w⟩ := kv
      unfold mergeFold
      by_cases ha : depAddable acc.1 peer k = true
      · rw [if_pos ha]
        rw [depAddable_eq] at ha
        rcases Bool.and_eq_true _ _ |>.mp ha with ⟨ha1, ha2⟩
        have hk : k ≠ dep := by
          intro hk
          subst hk
          rcases Bool.or_eq_true _ _ |>.mp h with h' | h'
          · rw [h'] at ha1
            simp at ha1
          · rw [h'] at ha2
            simp at ha2
        have hset : jfind (jset acc.1 k w) dep = jfind acc.1 dep :=
          jfind_jset_ne _ _ _ _ hk
        have h' : (truthy (jfind (jset acc.1 k w, true).1 dep)
            || peerBlocks peer dep) = true := by
          show (truthy (jfind (jset acc.1 k w) dep)
            || peerBlocks peer dep) = true
          rw [hset]
          exact h
        rw [ih peer (jset acc.1 k w, true) h']
        exact hset
      · rw [if_neg ha]
        exact ih peer acc h

/-- C1 (amended): a dependency name that is present with a non-empty
(JS-truthy) version in the manifest's ordinary dependencies section, or
present with a non-empty version in its peer dependencies section, keeps
its ordinary entry unchanged across the merge — so merging adds only
names that are absent (or pinned to the JS-falsy empty string) in both
sections and never overwrites such an entry — and the peer dependencies
section itself is never modified.  An entry pinned to the empty string is
treated as absent by the truthiness test and may be overwritten. -/
theorem mergeDependencies_adds_only_absent (m : Manifest) (nd : SMap)
    (dep : String)
    (h : (truthy (jfind (m.dependencies.getD []) dep)
        || peerBlocks m.peerDependencies dep) = true) :
    jfind ((mergeDependencies m nd).1.dependencies.getD []) dep
      = jfind (m.dependencies.getD []) dep ∧
    (mergeDependencies m nd).1.peerDependencies = m.peerDependencies := by
  have hkeep := mergeFold_unchanged dep nd m.peerDependencies
    (m.dependencies.getD [], false) h
  unfold mergeDependencies
  by_cases hr :
      (mergeFold m.peerDependencies (m.dependencies.getD [], false) nd).2
        = true
  · rw [if_pos hr]
    exact ⟨hkeep, rfl⟩
  · rw [if_neg hr]
    exact ⟨rfl, rfl⟩

/-- C1 (witness): the specification's fixture — manifest
`{dependencies: {a: "1.0.0"}}` merged with `{a: "2.0.0", b: "1.0.0"}`
keeps `a` at `"1.0.0"` — and a name truthily present in
`peerDependencies` (`react`) is not added to the ordinary section by a
merge that offers it. -/
theorem mergeDependencies_adds_only_absent_witness :
    jfind ((mergeDependencies ⟨some [("a", "1.0.0")], none, none, []⟩
        [("a", "2.0.0"), ("b", "1.0.0")]).1.dependencies.getD []) "a"
      = some "1.0.0" ∧
    jfind ((mergeDependencies
        ⟨some [], some [("react", "18.2.0")], none, []⟩
        [("react", "19.0.0")]).1.dependencies.getD []) "react" = none :=
  ⟨((mergeDependencies_adds_only_absent
      ⟨some [("a", "1.0.0")], none, none, []⟩
      [("a", "2.0.0"), ("b", "1.0.0")] "a" (by decide)).1).trans (by decide),
    ((mergeDependencies_adds_only_absent
      ⟨some [], some [("react", "18.2.0")], none, []⟩
      [("react", "19.0.0")] "react" (by decide)).1).trans (by decide)⟩

/-- C1 (counterexample): a dependency entry that is present but pinned to
the empty string is JS-falsy, so the merge overwrites it — refuting
"a name already present keeps its existing version, never overwritten". -/
theorem mergeDependencies_overwrites_empty_cex :
    jfind ((⟨some [("react-native-svg", "")], none, none, []⟩ :
        Manifest).dependencies.getD []) "react-native-svg" = some "" ∧
    jfind ((mergeDependencies
        ⟨some [("react-native-svg", "")], none, none, []⟩
        [("react-native-svg", "15.0.0")]).1.dependencies.getD [])
      "react-native-svg" = some "15.0.0" := by
  decide

theorem recFold_find (n : String) :
    ∀ (batch : List PkgInfo) (d : SMap),
      jfind (recFold d batch) n = orElseO (lastVer batch n) (jfind d n) := by
  intro batch
  induction batch with
  | nil => intro d; rfl
  | cons pi rest ih =>
      intro d
      have hunf : recFold d (pi :: rest) =
          recFold (if pi.name != "" && pi.version != "" then
            jset d pi.name pi.version else d) rest := rfl
      rw [hunf, ih]
      cases hrest : lastVer rest n with
      | some v =>
          have hlv : lastVer (pi :: rest) n = some v := by
            unfold lastVer
            rw [hrest]
          rw [hlv]
          rfl
      | none =>
          have hlv : lastVer (pi :: rest) n =
              (if pi.name == n && (pi.name != "" && pi.version != "") then
                some pi.version else none) := by
            unfold lastVer
            rw [hrest]
          rw [hlv]
          by_cases hok : (pi.name != "" && pi.version != "") = true
          · by_cases hn : pi.name = n
            · subst hn
              rw [if_pos hok, if_pos (by simp [hok]), jfind_jset_self]
              rfl
            · rw [if_pos hok, if_neg (by simp [beq_iff_eq, hn]),
                jfind_jset_ne _ _ _ _ hn]
          · have hokf : (pi.name != "" && pi.version != "") = false :=
              Bool.eq_false_iff.mpr hok
            rw [if_neg hok, if_neg (by simp [hokf])]

/-- C2: the batch-level update of `crossbuildui.dependencies` sets exactly
the (name, version) pairs of the batch — for a name written by the batch
the recorded version is that of its last batch entry, every tracked name
not written by the batch keeps its previous value — and every other field
of the manifest (ordinary dependencies, peer dependencies, the rest of the
`crossbuildui` section, and all unrelated fields) is unchanged. -/
theorem recordComponents_spec (m : Manifest) (batch : List PkgInfo)
    (n : String) :
    cbFind (recordComponents m batch) n
      = orElseO (lastVer batch n) (cbFind m n) ∧
    (recordComponents m batch).dependencies = m.dependencies ∧
    (recordComponents m batch).peerDependencies = m.peerDependencies ∧
    (recordComponents m batch).rest = m.rest ∧
    cbRest (recordComponents m batch) = cbRest m := by
  refine ⟨?_, rfl, rfl, rfl, rfl⟩
  show jfind (recFold
      ((m.crossbuildui.getD ⟨none, []⟩).dependencies.getD []) batch) n = _
  rw [recFold_find]
  rfl

/-- C6 (amended): for every non-empty (JS-truthy) token string, saving the
token and reading it back returns exactly the token that was written; the
empty string is the one token for which the round-trip instead returns the
absence signal. -/
theorem token_roundtrip (t : String) (file : Option String) (h : t ≠ "") :
    getToken (saveToken t file) = some t := by
  show (if (t != "") = true then some t else none) = some t
  rw [if_pos (by simpa using h)]

/-- C6 (witness): a concrete token round-trips. -/
theorem token_roundtrip_witness :
    getToken (saveToken "firebase-id-token" none) = some "firebase-id-token" :=
  token_roundtrip "firebase-id-token" none (by decide)

/-- C6 (counterexample): saving the empty-string token and reading it back
returns `null` (the absence signal), not the written token, because
`getToken` returns `token || null` — refuting the round-trip for every
token string. -/
theorem token_roundtrip_empty_cex :
    getToken (saveToken "" none) = none ∧
    (none : Option String) ≠ some "" := by
  decide

/-- C9: an `update` invocation that passes both `--all` and explicit
package names is rejected before any network request or manifest read: an
error message is printed and the process exits with status 1 (when the
invocation is unauthenticated the earlier authentication check produces
the same observable outcome). -/
theorem update_all_with_names_rejected (tokenFile : Option String)
    (names : List String) (manifestExists : Bool) (cbuiDeps : SMap)
    (hn : names ≠ []) :
    updateAction tokenFile names true manifestExists cbuiDeps
      = ⟨some 1, false, false, true⟩ := by
  have hne : names.isEmpty = false := by
    cases names with
    | nil => exact absurd rfl hn
    | cons a l => rfl
  unfold updateAction
  by_cases ht : (getToken tokenFile).isNone
  · rw [if_pos ht]
  · rw [if_neg ht]
    simp [hne]

/-- C9 (witness): `update --all @crossbuildui/button` with a valid token
exits 1 without reading the manifest or touching the network. -/
theorem update_all_with_names_rejected_witness :
    updateAction (some "tok") ["@crossbuildui/button"] true true
        [("@crossbuildui/button", "1.0.0")]
      = ⟨some 1, false, false, true⟩ :=
  update_all_with_names_rejected (some "tok") ["@crossbuildui/button"]
    true [("@crossbuildui/button", "1.0.0")] (by decide)

end CbuiCli
